import Mathlib

/-!
Verification of the SubKrek subdomain scanner core against its
natural-language specification.  The Rust sources under `src/` are shallowly
embedded: pure logic becomes Lean functions, the resolver and the filesystem
become explicit parameters, and fallible code returns `Option`/`Except`.
-/

namespace SubKrek

/-! ## Scanner (src/scanner/mod.rs)

`Scanner::check_subdomain` parses the candidate with `Name::from_ascii` and
then performs a DNS lookup via `resolver.lookup_ip`.  The resolver is
embedded as an explicit outcome per candidate. -/

/-- `ScanStatus` from src/scanner/mod.rs lines 26-31. -/
inductive ScanStatus where
  | Valid
  | Invalid
  | Error
deriving DecidableEq, Repr

/-- Outcome of `Name::from_ascii(subdomain)`: either a well-formed name or a
parse failure. -/
inductive NameParse where
  | ok
  | err
deriving DecidableEq, Repr

/-- The `trust_dns_resolver::error::ResolveErrorKind` variants relevant to the
match in `check_subdomain`: `NoRecordsFound` is matched by name, every other
variant (timeouts, io, proto, message errors) falls into the wildcard arm. -/
inductive ResolveErrKind where
  | noRecordsFound
  | timeout
  | io
  | proto
  | message
deriving DecidableEq, Repr

/-- Outcome of `resolver.lookup_ip(name)`: success with some number of
addresses, or a resolve error of a given kind. -/
inductive LookupOutcome where
  | ok (numAddrs : Nat)
  | err (k : ResolveErrKind)
deriving DecidableEq, Repr

/-- The resolver-facing behaviour of one candidate: how the name parses and
what the lookup returns. -/
structure ProbeEnv where
  parse : NameParse
  lookup : LookupOutcome
deriving DecidableEq, Repr

/-- `Scanner::check_subdomain` (src/scanner/mod.rs lines 135-152):
`Err` from `Name::from_ascii` gives `Error`; a lookup success is `Valid`
when at least one address was returned and `Invalid` otherwise;
`NoRecordsFound` gives `Invalid`; every other resolve error gives `Error`. -/
def check_subdomain (env : ProbeEnv) : ScanStatus :=
  match env.parse with
  | .err => .Error
  | .ok =>
    match env.lookup with
    | .ok n => if 0 < n then .Valid else .Invalid
    | .err .noRecordsFound => .Invalid
    | .err _ => .Error

/-- `Scanner::perform_scan` (src/scanner/mod.rs lines 102-121): each
candidate is mapped to the pair of the candidate and its `check_subdomain`
status; `buffered` preserves the stream order, so the collected vector is a
map over the input.  The resolver behaviour is the explicit `env`. -/
def perform_scan (env : String → ProbeEnv) (subdomains : List String) :
    List (String × ScanStatus) :=
  subdomains.map (fun s => (s, check_subdomain (env s)))

/-! ## Bounded-concurrency admission model

`perform_scan` delegates its admission policy to
`futures::stream::StreamExt::buffered(self.concurrency)`, whose body lives in
the external `futures` crate, not in this repository.  Its documented
semantics — keep up to `concurrency` futures running, start the next stream
element only when a slot is free — is modelled as a launch/complete
transition system over probe indices. -/

/-- Modelled from the spec: the in-flight state of the bounded fan-out that
`buffered(concurrency)` maintains for `perform_scan`; the combinator itself is
in the external `futures` crate.  `nextIdx` counts probes launched so far
(probes are taken from the stream in order, so the launched probes are exactly
the indices below `nextIdx`), `inFlight` holds the indices currently running,
and `done` the completed indices. -/
structure SchedState where
  nextIdx : Nat
  inFlight : List Nat
  done : List Nat
deriving DecidableEq, Repr

/-- Modelled from the spec: one scheduling step of `buffered(c)` driving a
stream of `total` probes — either admit the next probe while fewer than `c`
are in flight, or retire a running probe. -/
inductive SchedStep (c total : Nat) : SchedState → SchedState → Prop where
  | launch (s : SchedState) (hlt : s.inFlight.length < c) (hrem : s.nextIdx < total) :
      SchedStep c total s ⟨s.nextIdx + 1, s.nextIdx :: s.inFlight, s.done⟩
  | complete (s : SchedState) (i : Nat) (hmem : i ∈ s.inFlight) :
      SchedStep c total s ⟨s.nextIdx, s.inFlight.erase i, i :: s.done⟩

/-- The scheduler starts with nothing launched. -/
def SchedState.start : SchedState := ⟨0, [], []⟩

/-- States reachable by the bounded scheduler from the empty start state. -/
inductive SchedReachable (c total : Nat) : SchedState → Prop where
  | init : SchedReachable c total SchedState.start
  | step {s t : SchedState} :
      SchedReachable c total s → SchedStep c total s t → SchedReachable c total t

/-- Scheduler invariant: the running and completed indices together are a
permutation of the launched indices, and at most `c` probes run at once. -/
def SchedInv (c : Nat) (s : SchedState) : Prop :=
  (s.inFlight ++ s.done).Perm (List.range s.nextIdx) ∧ s.inFlight.length ≤ c

lemma schedInv_start (c : Nat) : SchedInv c SchedState.start := by
  constructor
  · simp [SchedState.start]
  · simp [SchedState.start]

lemma schedInv_step {c total : Nat} {s t : SchedState}
    (hinv : SchedInv c s) (hstep : SchedStep c total s t) : SchedInv c t := by
  obtain ⟨hperm, hlen⟩ := hinv
  cases hstep with
  | launch hlt hrem =>
      refine ⟨?_, by simpa using hlt⟩
      simp only [List.range_succ]
      exact (hperm.cons s.nextIdx).trans (List.perm_append_singleton _ _).symm
  | complete i hmem =>
      refine ⟨?_, le_trans (List.length_erase_le _ _) hlen⟩
      exact List.perm_middle.trans
        ((((List.perm_cons_erase hmem).symm).append_right s.done).trans hperm)

lemma schedInv_reachable {c total : Nat} {s : SchedState}
    (hr : SchedReachable c total s) : SchedInv c s := by
  induction hr with
  | init => exact schedInv_start c
  | step _ hstep ih => exact schedInv_step ih hstep

/-- Counting: a duplicate-free list of naturals below `m` with more than
`m - c` elements contains an element below `c`. -/
lemma exists_lt_of_nodup_lt {D : List Nat} {m c : Nat}
    (hnd : D.Nodup) (hub : ∀ x ∈ D, x < m) (hcard : m - c < D.length) :
    ∃ i ∈ D, i < c := by
  by_contra hcon
  push_neg at hcon
  have hsub : D.toFinset ⊆ Finset.Ico c m := by
    intro x hx
    rw [List.mem_toFinset] at hx
    exact Finset.mem_Ico.mpr ⟨hcon x hx, hub x hx⟩
  have hcard2 : D.toFinset.card ≤ (Finset.Ico c m).card := Finset.card_le_card hsub
  rw [List.toFinset_card_of_nodup hnd, Nat.card_Ico] at hcard2
  omega

/-! ## Theorems for claims C1, C2, C3 -/

/-- C1 counterexample: the claim says a probe that times out is classified
Dead (`Invalid`); `check_subdomain` sends a resolver timeout through the
wildcard arm of the `match` and classifies it `Error`, not `Invalid`. -/
theorem check_subdomain_timeout_counterexample :
    check_subdomain ⟨.ok, .err .timeout⟩ = .Error ∧
    check_subdomain ⟨.ok, .err .timeout⟩ ≠ .Invalid := by
  decide

/-- C1 (amended): `check_subdomain` classifies a candidate `Valid` exactly
when the name parses and resolution returns at least one address, `Invalid`
exactly when the name parses and resolution returns no addresses or fails
with `NoRecordsFound`, and `Error` exactly when the name fails to parse or
resolution fails with any other kind — including timeouts. -/
theorem check_subdomain_classification (env : ProbeEnv) :
    (check_subdomain env = .Valid ↔
      env.parse = .ok ∧ ∃ n, env.lookup = .ok n ∧ 0 < n) ∧
    (check_subdomain env = .Invalid ↔
      env.parse = .ok ∧
        (env.lookup = .ok 0 ∨ env.lookup = .err .noRecordsFound)) ∧
    (check_subdomain env = .Error ↔
      env.parse = .err ∨
        (env.parse = .ok ∧
          ∃ k, k ≠ ResolveErrKind.noRecordsFound ∧ env.lookup = .err k)) := by
  obtain ⟨p, l⟩ := env
  cases p <;> rcases l with n | k
  · rcases n with _ | n <;> simp [check_subdomain]
  · cases k <;> simp [check_subdomain]
  · rcases n with _ | n <;> simp [check_subdomain]
  · cases k <;> simp [check_subdomain]

/-- C2: in every reachable scheduler state at most `c` probes are in flight,
and a step that launches probe number `N + c + 1` (raising the launched count
from `N + c` to `N + c + 1`) can only happen from a state in which one of the
first `c` probes (an index below `c`) has already completed. -/
theorem probeAll_bounded_concurrency (c total N : Nat) (s t : SchedState)
    (_hc : 0 < c) (hr : SchedReachable c total s) :
    s.inFlight.length ≤ c ∧
    (SchedStep c total s t → t.nextIdx = N + c + 1 → t.nextIdx = s.nextIdx + 1 →
      ∃ i ∈ s.done, i < c) := by
  obtain ⟨hperm, hlen⟩ := schedInv_reachable hr
  refine ⟨hlen, ?_⟩
  intro hstep ht hsucc
  cases hstep with
  | launch hlt hrem =>
      have hidx : s.nextIdx = N + c := by
        simpa using ht
      have hndall : (s.inFlight ++ s.done).Nodup :=
        hperm.symm.nodup (List.nodup_range _)
      have hnd : s.done.Nodup := hndall.of_append_right
      have hub : ∀ x ∈ s.done, x < s.nextIdx := by
        intro x hx
        have : x ∈ List.range s.nextIdx :=
          hperm.mem_iff.mp (List.mem_append_right _ hx)
        exact List.mem_range.mp this
      have hsum : s.inFlight.length + s.done.length = s.nextIdx := by
        have := hperm.length_eq
        simpa using this
      apply exists_lt_of_nodup_lt hnd (fun x hx => hidx ▸ hub x hx)
      omega
  | complete i hmem =>
      exact absurd hsucc (by simp)

/-- C2 witness: with concurrency 1 over a 2-probe stream, the state with one
probe completed is reachable, and the launch of probe 2 from it certifies
that probe 0 (one of the first `c`) had completed. -/
theorem probeAll_bounded_concurrency_witness :
    (⟨1, [], [0]⟩ : SchedState).inFlight.length ≤ 1 ∧
    (SchedStep 1 2 ⟨1, [], [0]⟩ ⟨2, [1], [0]⟩ → (2 : Nat) = 0 + 1 + 1 →
      (2 : Nat) = 1 + 1 → ∃ i ∈ [0], i < 1) := by
  have h1 : SchedReachable 1 2 (⟨1, [0], []⟩ : SchedState) :=
    SchedReachable.step SchedReachable.init
      (SchedStep.launch SchedState.start (by decide) (by decide))
  have h2 : SchedReachable 1 2 (⟨1, [], [0]⟩ : SchedState) :=
    SchedReachable.step h1
      (SchedStep.complete (⟨1, [0], []⟩ : SchedState) 0 (by decide))
  exact probeAll_bounded_concurrency 1 2 0 ⟨1, [], [0]⟩ ⟨2, [1], [0]⟩
    (by decide) h2

/-- C3: `perform_scan` returns exactly one `(candidate, status)` pair per
input candidate — the output length equals the input length for every
non-empty candidate list, whatever the resolver behaviour. -/
theorem perform_scan_preserves_cardinality (env : String → ProbeEnv)
    (subdomains : List String) (_h : subdomains ≠ []) :
    (perform_scan env subdomains).length = subdomains.length := by
  simp [perform_scan]

/-- C3 witness: concrete two-candidate scan. -/
theorem perform_scan_preserves_cardinality_witness :
    (["www.example.com", "mail.example.com"] : List String) ≠ [] ∧
    (perform_scan (fun _ => ⟨.ok, .ok 1⟩)
        ["www.example.com", "mail.example.com"]).length =
      (["www.example.com", "mail.example.com"] : List String).length := by
  refine ⟨by decide, ?_⟩
  exact perform_scan_preserves_cardinality (fun _ => ⟨.ok, .ok 1⟩) _ (by decide)

/-! ## Wayback (src/wayback/mod.rs)

`extract_subdomains` applies the regex
`(?i)https?://([a-zA-Z0-9][-a-zA-Z0-9]*\.)*<escaped base>` to each URL.
The pattern is embedded as an executable matcher over character lists with
the `regex` crate's leftmost-first semantics: positions are tried left to
right, the star is greedy with backtracking over the iteration count, and
group 1 reports the last iteration on the accepted path. -/

/-- `WaybackError` from src/wayback/mod.rs lines 6-13. -/
inductive WaybackError where
  | NetworkError (msg : String)
  | EmptyResponse
  | InvalidResponse (msg : String)
  | RegexError (msg : String)
  | HttpError (msg : String)
deriving DecidableEq, Repr

/-- Case-insensitive character equality: the effect of the `(?i)` flag on a
literal. -/
def ciEq (a b : Char) : Bool := a.toLower == b.toLower

/-- Case-insensitive literal match at the start of the input. -/
def ciStartsWith : List Char → List Char → Bool
  | [], _ => true
  | _ :: _, [] => false
  | p :: ps, c :: cs => ciEq p c && ciStartsWith ps cs

/-- One iteration of the group `([a-zA-Z0-9][-a-zA-Z0-9]*\.)`: an
alphanumeric, a greedy run over `[-a-zA-Z0-9]`, then a literal dot.  The dot
is outside the inner character class, so the iteration is deterministic:
either the maximal run is followed by a dot or the iteration fails.  Returns
the consumed text (the group capture) and the remaining input. -/
def matchGroupIter (l : List Char) : Option (List Char × List Char) :=
  match l with
  | [] => none
  | c :: cs =>
    if c.isAlphanum then
      let run := cs.takeWhile (fun d => d == '-' || d.isAlphanum)
      let rest := cs.dropWhile (fun d => d == '-' || d.isAlphanum)
      match rest with
      | '.' :: r2 => some ((c :: run) ++ ['.'], r2)
      | _ => none
    else none

/-- Greedy match of `([a-zA-Z0-9][-a-zA-Z0-9]*\.)*<base>` with backtracking
over the iteration count, threading the capture of the last group iteration
on the accepted path (`none` when the group took part zero times) — exactly
what the `regex` crate reports for group 1.  `fuel` bounds the iteration
count; every iteration consumes at least two characters, so any fuel of at
least the input length is exact. -/
def matchStarBase (base : List Char) : Nat → List Char → Option (List Char) →
    Option (Option (List Char))
  | 0, l, lastCap => if ciStartsWith base l then some lastCap else none
  | fuel + 1, l, lastCap =>
    match matchGroupIter l with
    | some (cap, rest) =>
      match matchStarBase base fuel rest (some cap) with
      | some r => some r
      | none => if ciStartsWith base l then some lastCap else none
    | none => if ciStartsWith base l then some lastCap else none

/-- The pattern at one start position: `(?i)https?://` (leftmost-first tries
the `s` alternative first; when the input starts with `https://` the
`http://` alternative cannot match at the same position, and vice versa),
then the star-and-base tail. -/
def matchAt (base l : List Char) : Option (Option (List Char)) :=
  if ciStartsWith "https://".toList l then
    matchStarBase base ((l.drop 8).length + 1) (l.drop 8) none
  else if ciStartsWith "http://".toList l then
    matchStarBase base ((l.drop 7).length + 1) (l.drop 7) none
  else none

/-- Unanchored leftmost search: try every start position left to right and
report the captures of the first position that matches. -/
def searchSubPattern (base : List Char) : List Char → Option (Option (List Char))
  | [] => none
  | c :: cs =>
    match matchAt base (c :: cs) with
    | some r => some r
    | none => searchSubPattern base cs

/-- Insertion into a deduplicating `HashSet`, modelled as a list keyed by
value: inserting a present element leaves the set unchanged. -/
def insertSet {α : Type} [DecidableEq α] (x : α) (s : List α) : List α :=
  if x ∈ s then s else s ++ [x]

/-- `WaybackMachine::extract_subdomains` (src/wayback/mod.rs lines 91-140):
for each URL, search the subdomain pattern; on a match whose group 1 took
part, append the base domain unless the capture already ends with it, trim
one trailing dot, and insert into the set; a URL with no match — or a match
in which the group took part zero times — increments the invalid counter.
Returns the extracted set and the invalid count. -/
def extract_subdomains (base : String) (urls : List String) :
    List String × Nat :=
  urls.foldl
    (fun acc url =>
      match searchSubPattern base.toList url.toList with
      | some (some cap) =>
        let fd := if base.toList.isSuffixOf cap then cap else cap ++ base.toList
        let fd := if fd.getLast? = some '.' then fd.dropLast else fd
        (insertSet (String.mk fd) acc.1, acc.2)
      | some none => (acc.1, acc.2 + 1)
      | none => (acc.1, acc.2 + 1))
    ([], 0)

/-- `WaybackMachine::fetch_subdomains` (src/wayback/mod.rs lines 69-88) after
transport and JSON decoding have succeeded: `rows` is the parsed
`Vec<Vec<String>>` body.  An entirely empty table is `EmptyResponse`;
otherwise the header row is dropped and every remaining row is indexed at 0 —
`row[0].clone()` on an empty row is an out-of-bounds panic, modelled as
`none`; on success the URLs feed `extract_subdomains` (whose regex always
compiles, so its `RegexError` path cannot fire) and the set is returned.
`collectFirstCols` is the embedding of the row-indexing map
`.map(|row| row[0].clone())`, with the out-of-bounds panic on an empty row
surfaced as `none`. -/
def collectFirstCols : List (List String) → Option (List String)
  | [] => some []
  | row :: rest =>
    match row.head? with
    | none => none
    | some x =>
      match collectFirstCols rest with
      | none => none
      | some xs => some (x :: xs)

def fetch_subdomains (base : String) (rows : List (List String)) :
    Option (Except WaybackError (List String)) :=
  if rows.isEmpty then some (Except.error WaybackError.EmptyResponse)
  else
    match collectFirstCols (rows.drop 1) with
    | none => none
    | some urls => some (Except.ok (extract_subdomains base urls).1)

/-- Collecting the first column fails exactly when some row is the empty
list. -/
lemma collectFirstCols_eq_none (l : List (List String)) :
    collectFirstCols l = none ↔ ∃ r ∈ l, r = [] := by
  induction l with
  | nil => simp [collectFirstCols]
  | cons a l ih =>
      cases a with
      | nil => simp [collectFirstCols]
      | cons x xs =>
          rcases hm : collectFirstCols l with _ | xs2
          · simp only [collectFirstCols, List.head?, hm]
            constructor
            · intro _
              obtain ⟨r, hr, hre⟩ := ih.mp hm
              exact ⟨r, List.mem_cons_of_mem _ hr, hre⟩
            · intro _
              trivial
          · simp only [collectFirstCols, List.head?, hm]
            constructor
            · intro h
              exact absurd h (by simp)
            · rintro ⟨r, hr, rfl⟩
              rcases List.mem_cons.mp hr with h1 | h2
              · exact List.noConfusion h1
              · have hn := ih.mpr ⟨[], h2, rfl⟩
                rw [hm] at hn
                exact Option.noConfusion hn

/-! ## Theorems for claims C4, C5, C10 -/

/-- C4: on the four-URL list, extraction returns exactly the set
{"www.example.com", "api.example.com"} (listed here in the model's insertion
order) and counts the other two URLs as skipped: "not-a-url" has no scheme
and "http://evil.com/example.com" never terminates in the target domain
under the label pattern. -/
theorem extract_subdomains_example_urls :
    extract_subdomains "example.com"
      ["http://www.example.com/x", "https://api.example.com", "not-a-url",
        "http://evil.com/example.com"] =
      (["www.example.com", "api.example.com"], 2) := by
  decide

/-- C5 counterexample: a parsed table holding only the header row is not
empty as a vector, so the `EmptyResponse` guard does not fire;
`fetch_subdomains` skips the header and succeeds with an empty subdomain
list instead of failing. -/
theorem fetch_header_only_counterexample :
    fetch_subdomains "example.com" [["original"]] = some (Except.ok []) ∧
    fetch_subdomains "example.com" [["original"]] ≠
      some (Except.error WaybackError.EmptyResponse) := by
  constructor
  · rfl
  · intro h
    rw [show fetch_subdomains "example.com" [["original"]] =
        some (Except.ok []) from rfl] at h
    exact Except.noConfusion (Option.some.inj h)

/-- C5 (amended): `fetch_subdomains` fails with `EmptyResponse` exactly when
the parsed table has no rows at all; a table containing only the header row
succeeds with an empty subdomain list. -/
theorem fetch_emptyResponse_iff (base : String) (rows : List (List String)) :
    (fetch_subdomains base rows = some (Except.error WaybackError.EmptyResponse)
      ↔ rows = []) ∧
    (∀ hdr, fetch_subdomains base [hdr] = some (Except.ok [])) := by
  constructor
  · constructor
    · intro h
      rcases rows with _ | ⟨r, rs⟩
      · rfl
      · exfalso
        simp only [fetch_subdomains, List.isEmpty_cons, Bool.false_eq_true,
          if_false, List.drop_succ_cons, List.drop_zero] at h
        rcases hm : collectFirstCols rs with _ | urls <;> rw [hm] at h
        · exact Option.noConfusion h
        · exact Except.noConfusion (Option.some.inj h)
    · intro h
      subst h
      rfl
  · intro hdr
    rfl

/-- C10: after a successful parse, `fetch_subdomains` indexes `row[0]` of
every data row unconditionally; for a non-empty table the computation panics
(returns no value at all, rather than an `InvalidResponse` error) exactly
when some data row is the empty list. -/
theorem fetch_empty_row_out_of_bounds (base : String)
    (rows : List (List String)) (hne : rows ≠ []) :
    fetch_subdomains base rows = none ↔ ∃ r ∈ rows.drop 1, r = [] := by
  rcases rows with _ | ⟨r, rs⟩
  · exact absurd rfl hne
  · simp only [fetch_subdomains, List.isEmpty_cons, Bool.false_eq_true,
      if_false, List.drop_succ_cons, List.drop_zero]
    rw [← collectFirstCols_eq_none]
    rcases hm : collectFirstCols rs with _ | urls <;> simp [hm]

/-- C10 witness: a table with a header row and one empty data row makes
`fetch_subdomains` panic. -/
theorem fetch_empty_row_out_of_bounds_witness :
    ([["u"], []] : List (List String)) ≠ [] ∧
    (fetch_subdomains "example.com" [["u"], []] = none ↔
      ∃ r ∈ ([["u"], []] : List (List String)).drop 1, r = []) := by
  refine ⟨by simp, ?_⟩
  exact fetch_empty_row_out_of_bounds "example.com" [["u"], []] (by simp)

/-! ## Utils (src/utils/mod.rs)

`format_url` and `extract_domain` are embedded over character lists.
`str::split("://").nth(1)` is modelled by `secondSegment`: the text between
the first occurrence of `"://"` and the next one (or the end), and
`split('/').next()` by `takeWhile`, since the first `split` segment is
exactly the text before the first separator (its `unwrap_or(s)` fallback is
unreachable: a `split` iterator always yields a first element). -/

/-- Rust `str::trim`: drop whitespace from both ends. -/
def trimChars (l : List Char) : List Char :=
  ((l.dropWhile Char.isWhitespace).reverse.dropWhile Char.isWhitespace).reverse

/-- The scheme separator literal `"://"`. -/
def schemeSep : List Char := [':', '/', '/']

/-- First occurrence of `"://"`: the text before it and the text after it,
or `none` when the separator does not occur. -/
def findSep : List Char → Option (List Char × List Char)
  | [] => none
  | c :: cs =>
    if schemeSep.isPrefixOf (c :: cs) then some ([], cs.drop 2)
    else
      match findSep cs with
      | some (pre, post) => some (c :: pre, post)
      | none => none

/-- `split("://").nth(1)`: the second segment of the split, i.e. the text
between the first `"://"` and the following one (or the end). -/
def secondSegment (l : List Char) : Option (List Char) :=
  match findSep l with
  | none => none
  | some (_, post) =>
    match findSep post with
    | none => some post
    | some (pre2, _) => some pre2

/-- `format_url` (src/utils/mod.rs lines 42-49): trim and lower-case, then
prepend `https://` unless the string already starts with `http://` or
`https://`. -/
def format_url (url : List Char) : List Char :=
  let u := (trimChars url).map Char.toLower
  if !("http://".toList.isPrefixOf u) && !("https://".toList.isPrefixOf u) then
    "https://".toList ++ u
  else u

/-- `extract_domain` (src/utils/mod.rs lines 51-56): the text between the
first `"://"` of the formatted URL and the next `'/'`. -/
def extract_domain (url : List Char) : Option (List Char) :=
  (secondSegment (format_url url)).map (fun s => s.takeWhile (fun c => c != '/'))

/-- `findSep` succeeds on any list containing the separator. -/
lemma findSep_append_sep (p q : List Char) :
    ∃ pre post, findSep (p ++ (schemeSep ++ q)) = some (pre, post) := by
  induction p with
  | nil =>
      refine ⟨[], q, ?_⟩
      show findSep (':' :: '/' :: '/' :: q) = some ([], q)
      have hc : schemeSep.isPrefixOf (':' :: '/' :: '/' :: q) = true := by
        simp [schemeSep, List.isPrefixOf]
      simp [findSep, hc]
  | cons c p ih =>
      obtain ⟨pre, post, hm⟩ := ih
      by_cases hp : schemeSep.isPrefixOf (c :: (p ++ (schemeSep ++ q))) = true
      · exact ⟨[], (p ++ (schemeSep ++ q)).drop 2, by simp [findSep, hp]⟩
      · exact ⟨c :: pre, post, by simp [findSep, hp, hm]⟩

/-- Whatever the input, the formatted URL contains `"://"`: either the input
already started with `http(s)://` or the scheme was just prepended. -/
lemma format_url_decomp (url : List Char) :
    ∃ p q, format_url url = p ++ (schemeSep ++ q) := by
  unfold format_url
  by_cases h1 : "http://".toList.isPrefixOf ((trimChars url).map Char.toLower) = true
  · obtain ⟨t, ht⟩ := List.isPrefixOf_iff_prefix.mp h1
    refine ⟨"http".toList, t, ?_⟩
    rw [if_neg (by rw [h1]; simp)]
    rw [← ht]
    rfl
  · by_cases h2 :
      "https://".toList.isPrefixOf ((trimChars url).map Char.toLower) = true
    · obtain ⟨t, ht⟩ := List.isPrefixOf_iff_prefix.mp h2
      refine ⟨"https".toList, t, ?_⟩
      rw [if_neg (by rw [h2]; simp)]
      rw [← ht]
      rfl
    · refine ⟨"https".toList, (trimChars url).map Char.toLower, ?_⟩
      rw [if_pos]
      · rfl
      · rw [Bool.eq_false_iff.mpr (fun h => h1 h), Bool.eq_false_iff.mpr (fun h => h2 h)]
        rfl

/-! ## Theorems for claim C6 -/

/-- C6 counterexample: the empty input is not rejected — domain extraction
returns the empty domain, which is neither non-empty nor contains a dot. -/
theorem extract_domain_no_validation_counterexample :
    extract_domain "".toList = some ([] : List Char) ∧
    ¬(([] : List Char) ≠ [] ∧ '.' ∈ ([] : List Char)) := by
  decide

/-- C6 (amended): `extract_domain` strips an `http://`/`https://` prefix
(prepending `https://` otherwise), trims and lower-cases, and returns the
text before the next `'/'` — but performs no validation: every input yields
a result (none is rejected), including empty or dot-free domains. -/
theorem extract_domain_total_no_validation (url : List Char) :
    (extract_domain url).isSome = true ∧
    extract_domain "HTTP://WWW.Example.Com/path".toList =
      some "www.example.com".toList ∧
    extract_domain "nodot".toList = some "nodot".toList := by
  refine ⟨?_, by decide, by decide⟩
  obtain ⟨p, q, hpq⟩ := format_url_decomp url
  obtain ⟨pre, post, hm⟩ := findSep_append_sep p q
  unfold extract_domain secondSegment
  rw [hpq, hm]
  rcases hfind : findSep post with _ | pr <;> simp [hfind]

/-! ## Wordlist (src/wordlist/mod.rs)

The manager owns registered paths, a base directory and the loaded set.
The filesystem is explicit: a contents map for readable files and a map
giving the `.txt` entries of existing directories.  Paths are strings and
`PathBuf::join` is modelled as separator concatenation.  Rust
`char::is_alphanumeric` is Unicode-aware, so the alphanumeric predicate is
an explicit parameter `alnum`, shared between the embedded validator and the
spec-side label rule. -/

/-- `WordlistError` from src/wordlist/mod.rs lines 14-20. -/
inductive WordlistError where
  | IoError (msg : String)
  | InvalidFormat (msg : String)
  | EmptyWordlist (path : String)
  | DirectoryNotFound (path : String)
deriving DecidableEq, Repr

/-- `WordlistManager` from src/wordlist/mod.rs lines 7-12. -/
structure WordlistManager where
  wordlist_paths : List String
  default_directory : String
  loaded_words : List (List Char)
deriving DecidableEq, Repr

/-- The filesystem seen by the manager: `contents p` is the line list of a
readable file at `p`, `dirTxtFiles d` the `.txt` entries of an existing
directory `d` (`none` when `d` is not an existing directory). -/
structure WordlistFS where
  contents : String → Option (List (List Char))
  dirTxtFiles : String → Option (List String)

/-- Rust `Path::is_absolute` on Unix: the path starts with `'/'`. -/
def pathIsAbsolute (p : String) : Bool :=
  match p.toList with
  | '/' :: _ => true
  | _ => false

/-- `WordlistManager::resolve_path` (src/wordlist/mod.rs lines 119-133): an
absolute path stands; a relative one is joined to the base directory after
stripping a leading `"./"`.  The Rust function returns `Result` but never
errs. -/
def resolve_path (m : WordlistManager) (p : String) : String :=
  if pathIsAbsolute p then p
  else if ['.', '/'].isPrefixOf p.toList then
    m.default_directory ++ "/" ++ String.mk (p.toList.drop 2)
  else m.default_directory ++ "/" ++ p

/-- `WordlistManager::add_wordlist` (src/wordlist/mod.rs lines 56-62):
resolve; if the resolved file exists and is not yet registered, record it;
always `Ok`. -/
def add_wordlist (fsExists : String → Bool) (m : WordlistManager) (p : String) :
    Except WordlistError WordlistManager :=
  let path := resolve_path m p
  if fsExists path && !(m.wordlist_paths.contains path) then
    Except.ok { m with wordlist_paths := m.wordlist_paths ++ [path] }
  else Except.ok m

/-- `WordlistManager::add_directory` (src/wordlist/mod.rs lines 64-86):
`DirectoryNotFound` unless the resolved path is an existing directory;
otherwise append every not-yet-registered `.txt` entry. -/
def add_directory (fs : WordlistFS) (m : WordlistManager) (dir : String) :
    Except WordlistError WordlistManager :=
  let dir_path := resolve_path m dir
  match fs.dirTxtFiles dir_path with
  | none => Except.error (WordlistError.DirectoryNotFound dir_path)
  | some files =>
    Except.ok { m with wordlist_paths :=
      m.wordlist_paths ++ files.filter (fun p => !(m.wordlist_paths.contains p)) }

/-- The consecutive-character loop of `validate_word` (src/wordlist/mod.rs
lines 179-189), walking `chars[1..]` with the previous character; the two
early `return false` checks are conjoined: a character outside
alphanumeric/`-`/`_`/`.` fails, as does a `.` or `-` repeating its
predecessor. -/
def validateTail (alnum : Char → Bool) : Char → List Char → Bool
  | _, [] => true
  | prev, c :: cs =>
    (alnum c || (c == '-' || c == '_' || c == '.')) &&
    !((c == '.' && prev == '.') || (c == '-' && prev == '-')) &&
    validateTail alnum c cs

/-- Byte length of a word, Rust `str::len`. -/
def utf8Len (l : List Char) : Nat := (l.map Char.utf8Size).sum

/-- `WordlistManager::validate_word` (src/wordlist/mod.rs lines 163-192):
non-empty, at most 63 bytes, alphanumeric first and last character, and the
tail loop. -/
def validate_word (alnum : Char → Bool) (word : List Char) : Bool :=
  if word.isEmpty ∨ utf8Len word > 63 then false
  else
    match word with
    | [] => false
    | c :: cs =>
      if !(alnum c) || !(alnum ((c :: cs).getLast (by simp))) then false
      else validateTail alnum c cs

/-- The not-subdomain-safe screen of `load_wordlist` (src/wordlist/mod.rs
lines 145-147): any of `=` `[` `]` `\x7b` `\x7d` `?` `&`, or a leading or
trailing dot. -/
def forbiddenScreen (word : List Char) : Bool :=
  word.contains '=' || word.contains '[' || word.contains ']' ||
  word.contains '\x7b' || word.contains '\x7d' || word.contains '?' ||
  word.contains '&' || word.head? == some '.' || word.getLast? == some '.'

/-- One line of `load_wordlist` (src/wordlist/mod.rs lines 140-155): trim;
skip empty and `#`-comment lines; screen forbidden tokens; insert into the
loaded set when `validate_word` passes. -/
def processLine (alnum : Char → Bool) (loaded : List (List Char))
    (line : List Char) : List (List Char) :=
  let word := trimChars line
  if !word.isEmpty && !(word.head? == some '#') then
    if forbiddenScreen word then loaded
    else if validate_word alnum word then insertSet word loaded
    else loaded
  else loaded

/-- `WordlistManager::load_wordlist` (src/wordlist/mod.rs lines 135-161) on
a readable file's lines (the `any_valid` tracking only drives a console
warning). -/
def load_wordlist (alnum : Char → Bool) (loaded : List (List Char))
    (lines : List (List Char)) : List (List Char) :=
  lines.foldl (processLine alnum) loaded

/-- `WordlistManager::load_all` (src/wordlist/mod.rs lines 88-107) up to the
final emptiness check: clear the loaded set, fall back to registering the
default directory when no path is registered, then load every registered
path that exists (existing files are modelled readable, so `IoError` does
not arise). -/
def load_all_filled (alnum : Char → Bool) (fs : WordlistFS)
    (m : WordlistManager) : Except WordlistError WordlistManager :=
  let m0 : WordlistManager := { m with loaded_words := [] }
  let step1 : Except WordlistError WordlistManager :=
    if m0.wordlist_paths.isEmpty then
      match fs.dirTxtFiles m0.default_directory with
      | some _ => add_directory fs m0 m0.default_directory
      | none => Except.ok m0
    else Except.ok m0
  match step1 with
  | Except.error e => Except.error e
  | Except.ok m1 =>
    Except.ok { m1 with loaded_words :=
      (m1.wordlist_paths.foldl
        (fun acc path =>
          match fs.contents path with
          | none => acc
          | some lines => load_wordlist alnum acc lines) m1.loaded_words) }

/-- `WordlistManager::load_all` (src/wordlist/mod.rs lines 88-113): the
filling phase, then `EmptyWordlist` when the loaded set came out empty. -/
def load_all (alnum : Char → Bool) (fs : WordlistFS) (m : WordlistManager) :
    Except WordlistError WordlistManager :=
  match load_all_filled alnum fs m with
  | Except.error e => Except.error e
  | Except.ok m2 =>
    if m2.loaded_words.isEmpty then
      Except.error (WordlistError.EmptyWordlist m2.default_directory)
    else Except.ok m2

/-- No two consecutive dots or hyphens, as the spec phrases the rule. -/
def noConsecutiveDotOrDash : List Char → Bool
  | c1 :: c2 :: rest =>
    !((c1 == '.' && c2 == '.') || (c1 == '-' && c2 == '-')) &&
      noConsecutiveDotOrDash (c2 :: rest)
  | _ => true

/-- The label validation rule exactly as the spec states it: length 1-63,
alphanumeric first and last character, characters drawn from alphanumerics,
`-`, `_`, `.`, and no two consecutive dots or hyphens. -/
def labelValidationRule (alnum : Char → Bool) (word : List Char) : Bool :=
  decide (1 ≤ word.length) && decide (word.length ≤ 63) &&
  (match word.head?, word.getLast? with
   | some a, some b => alnum a && alnum b
   | _, _ => false) &&
  word.all (fun c => alnum c || c == '-' || c == '_' || c == '.') &&
  noConsecutiveDotOrDash word

/-! ## Theorems for claim C7 -/

/-- C7 counterexample: when the resolved path exists nowhere, registering it
succeeds (`Ok`) with the manager unchanged — there is no `NotFound` failure
(`WordlistError` has no such variant at all). -/
theorem add_wordlist_missing_counterexample :
    add_wordlist (fun _ => false) ⟨[], "base", []⟩ "x.txt" =
      Except.ok ⟨[], "base", []⟩ := by
  rfl

/-- C7 (amended): `add_wordlist` never fails — a non-existent resolved path
is silently skipped (manager unchanged), an existing one is recorded, and
registering the same resolved path twice leaves the registered list
unchanged. -/
theorem add_wordlist_never_fails_idempotent (fsExists : String → Bool)
    (m : WordlistManager) (p : String) :
    ∃ m2, add_wordlist fsExists m p = Except.ok m2 ∧
      (fsExists (resolve_path m p) = false → m2 = m) ∧
      (fsExists (resolve_path m p) = true →
        resolve_path m p ∈ m2.wordlist_paths) ∧
      add_wordlist fsExists m2 p = Except.ok m2 := by
  cases hex : fsExists (resolve_path m p) with
  | false =>
      refine ⟨m, ?_, fun _ => rfl, fun hf => absurd hf (by simp), ?_⟩ <;>
        simp [add_wordlist, hex]
  | true =>
      cases hmem : m.wordlist_paths.contains (resolve_path m p) with
      | true =>
          have hm2 : resolve_path m p ∈ m.wordlist_paths := by simpa using hmem
          refine ⟨m, ?_, fun hf => ?_, fun _ => hm2, ?_⟩
          · simp [add_wordlist, hex, hm2]
          · exact absurd hf (by simp)
          · simp [add_wordlist, hex, hm2]
      | false =>
          have hm2 : resolve_path m p ∉ m.wordlist_paths := by simpa using hmem
          refine ⟨{ m with wordlist_paths :=
              m.wordlist_paths ++ [resolve_path m p] }, ?_, fun hf => ?_,
              fun _ => ?_, ?_⟩
          · simp [add_wordlist, hex, hm2]
          · exact absurd hf (by simp)
          · simp
          · have hr : resolve_path
                { m with wordlist_paths := m.wordlist_paths ++ [resolve_path m p] } p =
                resolve_path m p := rfl
            have hc2 : resolve_path m p ∈
                m.wordlist_paths ++ [resolve_path m p] := by
              simp
            simp [add_wordlist, hr, hc2]

/-- C7 witness: concrete run of the amended statement with an
always-existing filesystem. -/
theorem add_wordlist_never_fails_idempotent_witness :
    ∃ m2, add_wordlist (fun _ => true) ⟨[], "base", []⟩ "w.txt" =
        Except.ok m2 ∧
      ((fun _ => true : String → Bool)
          (resolve_path ⟨[], "base", []⟩ "w.txt") = false →
        m2 = ⟨[], "base", []⟩) ∧
      ((fun _ => true : String → Bool)
          (resolve_path ⟨[], "base", []⟩ "w.txt") = true →
        resolve_path ⟨[], "base", []⟩ "w.txt" ∈ m2.wordlist_paths) ∧
      add_wordlist (fun _ => true) m2 "w.txt" = Except.ok m2 :=
  add_wordlist_never_fails_idempotent (fun _ => true) ⟨[], "base", []⟩ "w.txt"

/-! ## Lemmas for claims C8 and C9 -/

lemma mem_insertSet {α : Type} [DecidableEq α] {w x : α} {s : List α}
    (h : w ∈ insertSet x s) : w = x ∨ w ∈ s := by
  unfold insertSet at h
  by_cases hx : x ∈ s
  · rw [if_pos hx] at h
    exact Or.inr h
  · rw [if_neg hx] at h
    rcases List.mem_append.mp h with h1 | h2
    · exact Or.inr h1
    · exact Or.inl (List.mem_singleton.mp h2)

lemma mem_processLine {alnum : Char → Bool} {loaded : List (List Char)}
    {line w : List Char} (h : w ∈ processLine alnum loaded line) :
    w ∈ loaded ∨ (forbiddenScreen w = false ∧ validate_word alnum w = true) := by
  unfold processLine at h
  dsimp only at h
  split_ifs at h with h1 h2 h3
  · exact Or.inl h
  · rcases mem_insertSet h with rfl | hm
    · refine Or.inr ⟨?_, h3⟩
      cases hs : forbiddenScreen (trimChars line) with
      | false => rfl
      | true => exact absurd hs h2
    · exact Or.inl hm
  · exact Or.inl h
  · exact Or.inl h

lemma mem_load_wordlist {alnum : Char → Bool} {lines : List (List Char)} :
    ∀ {loaded : List (List Char)} {w : List Char},
      w ∈ load_wordlist alnum loaded lines →
      w ∈ loaded ∨ (forbiddenScreen w = false ∧ validate_word alnum w = true) := by
  induction lines with
  | nil => exact fun h => Or.inl h
  | cons l ls ih =>
      intro loaded w h
      have h2 : w ∈ load_wordlist alnum (processLine alnum loaded l) ls := h
      rcases ih h2 with hin | hp
      · exact mem_processLine hin
      · exact Or.inr hp

lemma validateTail_charset (alnum : Char → Bool) :
    ∀ (cs : List Char) (prev : Char), validateTail alnum prev cs = true →
      ∀ c ∈ cs, (alnum c || (c == '-' || c == '_' || c == '.')) = true := by
  intro cs
  induction cs with
  | nil =>
      intro prev _ c hc
      cases hc
  | cons c cs ih =>
      intro prev h d hd
      simp only [validateTail, Bool.and_eq_true] at h
      obtain ⟨⟨h1, h2⟩, h3⟩ := h
      rcases List.mem_cons.mp hd with rfl | hd2
      · exact h1
      · exact ih c h3 d hd2

lemma validateTail_noConsec (alnum : Char → Bool) :
    ∀ (cs : List Char) (prev : Char), validateTail alnum prev cs = true →
      noConsecutiveDotOrDash (prev :: cs) = true := by
  intro cs
  induction cs with
  | nil =>
      intro prev _
      rfl
  | cons c cs ih =>
      intro prev h
      simp only [validateTail, Bool.and_eq_true] at h
      obtain ⟨⟨h1, h2⟩, h3⟩ := h
      simp only [noConsecutiveDotOrDash, Bool.and_eq_true]
      refine ⟨?_, ih c h3⟩
      simpa [Bool.and_comm] using h2

lemma length_le_utf8Len (l : List Char) : l.length ≤ utf8Len l := by
  induction l with
  | nil => simp [utf8Len]
  | cons c cs ih =>
      have hp := Char.utf8Size_pos c
      have ih2 : cs.length ≤ utf8Len cs := ih
      simp only [utf8Len, List.map_cons, List.sum_cons, List.length_cons]
      simp only [utf8Len] at ih2
      omega

lemma validate_word_implies_rule (alnum : Char → Bool) (w : List Char)
    (h : validate_word alnum w = true) : labelValidationRule alnum w = true := by
  unfold validate_word at h
  by_cases hemp : (w.isEmpty = true ∨ utf8Len w > 63)
  · rw [if_pos hemp] at h
    exact Bool.noConfusion h
  · rw [if_neg hemp] at h
    push_neg at hemp
    obtain ⟨hne, hlen⟩ := hemp
    cases w with
    | nil => exact Bool.noConfusion h
    | cons c cs =>
        dsimp only at h
        by_cases hal :
          ((!(alnum c) || !(alnum ((c :: cs).getLast (by simp)))) = true)
        · rw [if_pos hal] at h
          exact Bool.noConfusion h
        · rw [if_neg hal] at h
          cases hac : alnum c with
          | false => exact absurd (by simp [hac]) hal
          | true =>
            cases hab : alnum ((c :: cs).getLast (by simp)) with
            | false => exact absurd (by simp [hac, hab]) hal
            | true =>
              have hlenc : (c :: cs).length ≤ 63 :=
                le_trans (length_le_utf8Len _) (by omega)
              have hlast : (c :: cs).getLast? =
                  some ((c :: cs).getLast (by simp)) :=
                List.getLast?_eq_getLast _ _
              simp only [labelValidationRule, Bool.and_eq_true]
              refine ⟨⟨⟨⟨?_, ?_⟩, ?_⟩, ?_⟩, ?_⟩
              · simp
              · simpa using hlenc
              · rw [List.head?_cons, hlast]
                simp [hac, hab]
              · rw [List.all_eq_true]
                intro d hd
                rcases List.mem_cons.mp hd with rfl | hd2
                · simp [hac]
                · have hvc := validateTail_charset alnum cs c h d hd2
                  simp only [Bool.or_eq_true] at hvc ⊢
                  tauto
              · exact validateTail_noConsec alnum cs c h

lemma mem_loadPaths {alnum : Char → Bool} {fs : WordlistFS} :
    ∀ {paths : List String} {acc : List (List Char)} {w : List Char},
      w ∈ paths.foldl
        (fun acc path => match fs.contents path with
          | none => acc
          | some lines => load_wordlist alnum acc lines) acc →
      w ∈ acc ∨ (forbiddenScreen w = false ∧ validate_word alnum w = true) := by
  intro paths
  induction paths with
  | nil => exact fun h => Or.inl h
  | cons p ps ih =>
      intro acc w h
      rw [List.foldl_cons] at h
      rcases hm : fs.contents p with _ | lines <;> rw [hm] at h
      · exact ih h
      · rcases ih h with hin | hp
        · exact mem_load_wordlist hin
        · exact Or.inr hp

/-- The filling phase, when it succeeds, produces a loaded set that is a
fold of the per-file loader over some path list, starting from the cleared
set. -/
lemma load_all_filled_ok {alnum : Char → Bool} {fs : WordlistFS}
    {m m2 : WordlistManager}
    (h : load_all_filled alnum fs m = Except.ok m2) :
    ∃ paths : List String,
      m2.loaded_words = paths.foldl
        (fun acc path => match fs.contents path with
          | none => acc
          | some lines => load_wordlist alnum acc lines) [] := by
  unfold load_all_filled at h
  dsimp only at h
  rcases hp : m.wordlist_paths with _ | ⟨p0, ps⟩ <;> rw [hp] at h
  · simp only [List.isEmpty_nil, if_true] at h
    rcases hd : fs.dirTxtFiles m.default_directory with _ | files <;>
      simp only [hd] at h
    · refine ⟨[], ?_⟩
      rw [← Except.ok.inj h]
    · unfold add_directory at h
      dsimp only at h
      rcases hd2 : fs.dirTxtFiles
          (resolve_path ⟨[], m.default_directory, []⟩ m.default_directory) with
        _ | files2 <;> simp only [hd2] at h
      · exact Except.noConfusion h
      · refine ⟨List.filter (fun p => !(([] : List String).contains p)) files2, ?_⟩
        rw [← Except.ok.inj h]
        simp
  · simp only [List.isEmpty_cons, Bool.false_eq_true, if_false] at h
    refine ⟨p0 :: ps, ?_⟩
    rw [← Except.ok.inj h]

/-! ## Theorems for claims C8 and C9 -/

/-- C8: every fragment accepted into the loaded set by a successful
`load_all` satisfies the spec's label validation rule (length 1-63, first
and last character alphanumeric, characters drawn from alphanumerics, `-`,
`_`, `.`, no two consecutive dots or hyphens) and passes the
not-subdomain-safe screen: it contains none of `=` `[` `]` `\x7b` `\x7d`
`?` `&` and has no leading or trailing dot. -/
theorem load_all_accepted_fragments_valid (alnum : Char → Bool)
    (fs : WordlistFS) (m m2 : WordlistManager)
    (hok : load_all alnum fs m = Except.ok m2)
    (w : List Char) (hw : w ∈ m2.loaded_words) :
    labelValidationRule alnum w = true ∧ forbiddenScreen w = false := by
  have hfilled : load_all_filled alnum fs m = Except.ok m2 := by
    unfold load_all at hok
    rcases hf : load_all_filled alnum fs m with e | m3 <;>
      simp only [hf] at hok
    · exact Except.noConfusion hok
    · by_cases he : m3.loaded_words.isEmpty = true
      · rw [if_pos he] at hok
        exact Except.noConfusion hok
      · rw [if_neg he] at hok
        exact hok
  obtain ⟨paths, hpaths⟩ := load_all_filled_ok hfilled
  rw [hpaths] at hw
  rcases mem_loadPaths hw with hin | ⟨hsc, hval⟩
  · cases hin
  · exact ⟨validate_word_implies_rule alnum w hval, hsc⟩

/-- C8 witness: a run over one file containing the single line `www`. -/
theorem load_all_accepted_fragments_valid_witness :
    labelValidationRule Char.isAlphanum (['w', 'w', 'w'] : List Char) = true ∧
    forbiddenScreen (['w', 'w', 'w'] : List Char) = false :=
  load_all_accepted_fragments_valid Char.isAlphanum
    ⟨fun p => if p == "w.txt" then some [['w', 'w', 'w']] else none,
      fun _ => none⟩
    ⟨["w.txt"], "base", []⟩
    ⟨["w.txt"], "base", [['w', 'w', 'w']]⟩
    (by rfl) ['w', 'w', 'w'] (by simp)

/-- C9 counterexample: with no registered path and an existing *relative*
default directory `wl`, the fallback re-resolves `wl` against itself to
`wl/wl`, which is not a directory, so `load_all` fails with
`DirectoryNotFound` — the fragment set is empty yet the failure is not
`EmptyWordlist`. -/
theorem load_all_fallback_counterexample :
    load_all Char.isAlphanum
      ⟨fun _ => none, fun d => if d == "wl" then some [] else none⟩
      ⟨[], "wl", []⟩ =
      Except.error (WordlistError.DirectoryNotFound "wl/wl") ∧
    WordlistError.DirectoryNotFound "wl/wl" ≠
      WordlistError.EmptyWordlist "wl" := by
  constructor
  · rfl
  · intro h
    exact WordlistError.noConfusion h

/-- C9 (amended): whenever the filling phase (registration fallback plus
loading every registered existing file) completes, `load_all` fails with
`EmptyWordlist` exactly when the resulting fragment set is empty, and
succeeds whenever at least one fragment was accepted. -/
theorem load_all_emptyWordlist_iff (alnum : Char → Bool) (fs : WordlistFS)
    (m m2 : WordlistManager)
    (h : load_all_filled alnum fs m = Except.ok m2) :
    (load_all alnum fs m =
        Except.error (WordlistError.EmptyWordlist m2.default_directory) ↔
      m2.loaded_words = []) ∧
    (m2.loaded_words ≠ [] → load_all alnum fs m = Except.ok m2) := by
  unfold load_all
  rw [h]
  by_cases he : m2.loaded_words.isEmpty = true
  · have he2 : m2.loaded_words = [] := by simpa using he
    simp [he, he2]
  · have hne : m2.loaded_words ≠ [] := by
      intro hh
      exact he (by simp [hh])
    simp [he, hne]

/-- C9 witness: the amended statement at the one-file `www` scenario. -/
theorem load_all_emptyWordlist_iff_witness :
    (load_all Char.isAlphanum
        ⟨fun p => if p == "w.txt" then some [['w', 'w', 'w']] else none,
          fun _ => none⟩
        ⟨["w.txt"], "base", []⟩ =
        Except.error (WordlistError.EmptyWordlist "base") ↔
      ([['w', 'w', 'w']] : List (List Char)) = []) ∧
    (([['w', 'w', 'w']] : List (List Char)) ≠ [] →
      load_all Char.isAlphanum
        ⟨fun p => if p == "w.txt" then some [['w', 'w', 'w']] else none,
          fun _ => none⟩
        ⟨["w.txt"], "base", []⟩ =
        Except.ok ⟨["w.txt"], "base", [['w', 'w', 'w']]⟩) :=
  load_all_emptyWordlist_iff Char.isAlphanum
    ⟨fun p => if p == "w.txt" then some [['w', 'w', 'w']] else none,
      fun _ => none⟩
    ⟨["w.txt"], "base", []⟩
    ⟨["w.txt"], "base", [['w', 'w', 'w']]⟩
    (by rfl)

end SubKrek
